import Mathlib

set_option maxHeartbeats 1000000

/-!
Verification of the nock-rs draft interpreter (src/src/draft.rs): a shallow
embedding of the noun data model, the `nock_on` evaluator, the atom/axis
helpers, the parser (`Noun::from_str`) and the printer (`fmt::Display`),
together with theorems settling the specification claims.

Conventions of the embedding:
* Atoms are little-endian lists of base-256 digits (`Vec<u8>` in the source),
  kept as raw `List Nat`; equality of nouns is the derived structural
  equality, exactly as `#[derive(PartialEq)]` compares the digit vectors.
* Functions that the source writes as unbounded loops or general recursion
  are given an explicit fuel argument; the `RRes.fuelOut` outcome marks fuel
  exhaustion and is proven unreachable where the source code terminates.
* A Rust `panic!` / `.expect(..)` / `unimplemented!()` reached at runtime is
  modelled by the distinct outcome `RRes.panic`.
-/

namespace NockRs

/-- Little-endian 8-bit digit sequence of an atom (`Vec<u8>` in the source). -/
abbrev Digits := List Nat

/-- Numeric value of a little-endian base-256 digit list. -/
def digitsVal (d : Digits) : Nat := d.foldr (fun x a => x + 256 * a) 0

/-- Modelled from the spec: the external digit-slice library's
`DigitSlice::as_digits` conversion (spec section 1 treats raw byte-digit
conversion as an external service; section 4.3 requires any unsigned value to
convert to its little-endian digit representation).  Canonical form: no
trailing zero digits, and the value 0 has no digits.  The first argument is
structural fuel so the definition evaluates by kernel reduction. -/
def natToDigitsAux : Nat → Nat → List Nat
  | 0, _ => []
  | _, 0 => []
  | fuel+1, n+1 => (n+1) % 256 :: natToDigitsAux fuel ((n+1) / 256)

/-- Canonical little-endian base-256 digits of a natural number. -/
def natToDigits (n : Nat) : List Nat := natToDigitsAux n n

/-- A Nock noun (`Noun`/`Inner` in src/src/draft.rs): an atom carries its
little-endian byte-digit vector, a cell is an ordered pair.  Equality is the
derived structural equality of the source (`#[derive(PartialEq, Eq)]`),
which compares atom digit vectors exactly, including any zero padding. -/
inductive Noun where
  | atom : Digits → Noun
  | cell : Noun → Noun → Noun
deriving DecidableEq, BEq, Repr

/-- `Noun::atom` composed with the digit-slice conversion: build the noun of
an unsigned value (`Noun::from` on unsigned integers / `BigUint`). -/
def Noun.fromNat (n : Nat) : Noun := .atom (natToDigits n)

/-- Modelled from the spec: `Noun::as_u32`, which uses `u32::from_digits`
from the external digit-slice library.  Per the source doc comment it does
not match atoms larger than 2^32 and is not exact just below that bound: the
model accepts a digit vector iff it has at most four 8-bit digits. -/
def Noun.as_u32 : Noun → Option Nat
  | .atom d => if d.length ≤ 4 then some (digitsVal d) else none
  | .cell _ _ => none

/-- Outcome of running an embedded fallible Rust function:
`ok`/`err` mirror `Result`, `panic` marks a Rust panic (`panic!`,
`.expect(..)`, `unimplemented!()`), and `fuelOut` marks exhaustion of the
artificial fuel used to embed loops/recursion. -/
inductive RRes (α : Type) where
  | ok : α → RRes α
  | err : RRes α
  | panic : RRes α
  | fuelOut : RRes α
deriving DecidableEq, BEq, Repr

/-- `try!`-style propagation: `err`, `panic` and `fuelOut` short-circuit. -/
def RRes.bind {α β : Type} : RRes α → (α → RRes β) → RRes β
  | .ok a, f => f a
  | .err, _ => .err
  | .panic, _ => .panic
  | .fuelOut, _ => .fuelOut

/-- Modelled from the spec: binary-tree axis addressing (spec section 4.4).
The source declares `fn axis(atom: &[u8], subject: &Noun) -> NockResult` but
leaves its body `unimplemented!()`; the spec fixes its semantics: axis 1 is
the whole subject, an even axis `a > 1` is axis `a/2` of the left child, an
odd axis `a > 1` is axis `(a-1)/2` of the right child, axis 0 fails, and
reaching an atom while descent remains fails.  Fuel-structured (one unit per
halving step) so that it evaluates by kernel reduction; `axisNat` supplies
adequate fuel. -/
def axisFuel : Nat → Nat → Noun → RRes Noun
  | 0, _, _ => .fuelOut
  | fuel+1, a, s =>
    if a = 0 then .err
    else if a = 1 then .ok s
    else
      match s with
      | .atom _ => .err
      | .cell l r => axisFuel fuel (a / 2) (if a % 2 = 0 then l else r)

/-- Axis addressing at a numeric axis (fuel `a + 1` always suffices). -/
def axisNat (a : Nat) (s : Noun) : RRes Noun := axisFuel (a + 1) a s

/-- The `axis` helper of the source: the axis atom is interpreted by its
numeric value. -/
def axis (d : Digits) (s : Noun) : RRes Noun := axisNat (digitsVal d) s

/-- Modelled from the spec: opcode 4 (Bump), whose body is commented out in
the source.  Spec section 4.4: evaluate the operand, require an atom, return
the arbitrary-precision increment (no fixed-width wraparound). -/
def bump : Noun → RRes Noun
  | .atom d => .ok (.atom (natToDigits (digitsVal d + 1)))
  | .cell _ _ => .err

/-- One dispatch step of the evaluator loop of src/src/draft.rs, with
`recur` standing for re-entry into `nock_on` (both the source's genuine
nested calls and the loop `continue` for the tail-position opcode 2).
Implemented opcodes follow the source: 0 (Axis, via `axis`), 1 (Just),
2 (Fire), 3 (Depth), and autocons for a cell operator; opcode 4 (Bump) is
modelled from the spec since its body is commented out in the source; the
remaining small-atom opcodes return `Err(NockError)` exactly as the current
source does. -/
def nockStep (recur : Noun → Noun → RRes Noun) (subject formula : Noun) : RRes Noun :=
  match formula with
  | .cell ops tail =>
    match ops.as_u32 with
    | some 0 =>
      match tail with
      | .atom x => axis x subject
      | .cell _ _ => .err
    | some 1 => .ok tail
    | some 2 =>
      match tail with
      | .cell b c =>
        (recur subject b).bind fun p =>
        (recur subject c).bind fun q =>
        recur p q
      | .atom _ => .err
    | some 3 =>
      (recur subject tail).bind fun p =>
        match p with
        | .cell _ _ => .ok (Noun.fromNat 0)
        | .atom _ => .ok (Noun.fromNat 1)
    | some 4 => (recur subject tail).bind bump
    | some _ => .err
    | none =>
      match ops with
      | .cell n t =>
        (recur subject n).bind fun a =>
        (recur subject t).bind fun b =>
        .ok (Noun.cell a b)
      | .atom _ => .err
  | .atom _ => .err

/-- The evaluator `nock_on(subject, formula)` of src/src/draft.rs, with an
explicit fuel bound standing in for the source's unbounded loop/recursion. -/
def nock_on : Nat → Noun → Noun → RRes Noun
  | 0, _, _ => .fuelOut
  | fuel+1, subject, formula => nockStep (nock_on fuel) subject formula

/-! ### Parser (`impl str::FromStr for Noun` in src/src/draft.rs)

The character stream is a `List Char`; the `Peekable` iterator state is the
remaining list.  `parse`, `parse_cell` and the trailing-noun loop of
`parse_cell` are mutually recursive through the input, so they carry fuel;
`parse_atom` and `eat_space` recurse structurally on the input. -/


/-- `eat_space`: drop leading whitespace. -/
def eatSpace : List Char → List Char
  | [] => []
  | c :: t => if c.isWhitespace then eatSpace t else c :: t

/-- The scanning loop of `parse_atom`: collect decimal digits into `buf`,
skip `.` separators, stop at whitespace or a bracket or end of input, and
reject any other character (`none` is the `Err(ParseError)` return). -/
def atomScan : List Char → List Char → Option (List Char × List Char)
  | buf, [] => some (buf, [])
  | buf, c :: t =>
    if c.isDigit then atomScan (buf ++ [c]) t
    else if c = '.' then atomScan buf t
    else if c = '[' ∨ c = ']' ∨ c.isWhitespace then some (buf, c :: t)
    else none

/-- Decimal value of a big-endian digit-character string (the
`buf.collect::<String>().parse::<BigUint>()` step of `parse_atom`). -/
def decValue (buf : List Char) : Nat :=
  buf.foldl (fun a c => 10 * a + (c.toNat - 48)) 0

/-- `parse_atom`: scan a digit run, fail on an empty run, convert the digit
string to a number and build the canonical atom (`Noun::from(num)`).  The
`.expect("Failed to parse atom")` of the source is the `panic` branch,
reached only if the collected buffer held a non-digit. -/
def parse_atom (l : List Char) : RRes (Noun × List Char) :=
  match atomScan [] l with
  | none => .err
  | some (buf, rest) =>
    if buf = [] then .err
    else if buf.all Char.isDigit then .ok (Noun.atom (natToDigits (decValue buf)), rest)
    else .panic

/-- The `FromIterator<Noun> for Noun` collect: reverse the element list and
fold it into right-nested cells; `none` is the
`.expect("Can't make noun from empty list")` panic on an empty list. -/
def collectNoun (v : List Noun) : Option Noun :=
  v.reverse.foldl
    (fun acc i =>
      match acc with
      | none => some i
      | some a => some (.cell i a))
    none

mutual

/-- The inner `parse` of `from_str`: skip whitespace, then dispatch on the
next character: digit runs to `parse_atom`, `[` to `parse_cell`, anything
else (or end of input) is a parse error. -/
def parse : Nat → List Char → RRes (Noun × List Char)
  | 0, _ => .fuelOut
  | fuel+1, l =>
    match eatSpace l with
    | [] => .err
    | c :: t =>
      if c.isDigit then parse_atom (c :: t)
      else if c = '[' then parse_cell fuel (c :: t)
      else .err

/-- `parse_cell`: consume the `[` (the `panic!("Bad cell start")` branch
fires if it is missing), parse the two mandatory nouns, then run the
trailing-noun loop. -/
def parse_cell : Nat → List Char → RRes (Noun × List Char)
  | 0, _ => .fuelOut
  | fuel+1, l =>
    match l with
    | c :: t =>
      if c = '[' then
        (parse fuel t).bind fun er1 =>
        (parse fuel er1.2).bind fun er2 =>
        cellLoop fuel [er1.1, er2.1] er2.2
      else .panic
    | [] => .panic

/-- The trailing-noun loop of `parse_cell`: further atoms or cells are
appended until `]` closes the cell and the elements are collected into
right-nested cells; any other character (or end of input) is a parse
error. -/
def cellLoop : Nat → List Noun → List Char → RRes (Noun × List Char)
  | 0, _, _ => .fuelOut
  | fuel+1, elts, l =>
    match eatSpace l with
    | [] => .err
    | c :: t =>
      if c.isDigit then
        (parse_atom (c :: t)).bind fun er => cellLoop fuel (elts ++ [er.1]) er.2
      else if c = '[' then
        (parse_cell fuel (c :: t)).bind fun er => cellLoop fuel (elts ++ [er.1]) er.2
      else if c = ']' then
        match collectNoun elts with
        | some m => .ok (m, t)
        | none => .panic
      else .err

end

/-- `Noun::from_str`: run `parse` on the character stream and return its
noun, ignoring whatever input remains.  The fuel `2 * length + 4` is enough
for the whole input (proven below: `from_str` never returns `fuelOut`). -/
def from_str (s : List Char) : RRes Noun :=
  match parse (2 * s.length + 4) s with
  | .ok (n, _) => .ok n
  | .err => .err
  | .panic => .panic
  | .fuelOut => .fuelOut

/-! ### Printer (`impl fmt::Display for Noun` in src/src/draft.rs) -/


/-- The decimal digit character of a digit value. -/
def digitChar (d : Nat) : Char := Char.ofNat (48 + d)

/-- Little-endian decimal digits of a number (fuel-structured). -/
def decDigitsAux : Nat → Nat → List Nat
  | 0, _ => []
  | _, 0 => []
  | fuel+1, n+1 => (n+1) % 10 :: decDigitsAux fuel ((n+1) / 10)

/-- The decimal rendering `format!("{}", BigUint...)` of a number, as a
character list (most significant digit first; 0 prints as "0"). -/
def decChars (n : Nat) : List Char :=
  if n = 0 then ['0'] else ((decDigitsAux n n).reverse).map digitChar

/-- The indexed loop of `dot_separators`: write a `.` before the character
at position `i > 0` whenever `i % 3` equals the phase `len % 3`. -/
def dotSepAux (phase : Nat) : Nat → List Char → List Char
  | _, [] => []
  | i, c :: t =>
    (if 0 < i ∧ i % 3 = phase then ['.', c] else [c]) ++ dotSepAux phase (i+1) t

/-- `dot_separators`: standard thousands grouping, counting from the
least-significant digit. -/
def dotSep (s : List Char) : List Char := dotSepAux (s.length % 3) 0 s

/-- Render an atom: decimal value with dot separators. -/
def printAtom (d : Digits) : List Char := dotSep (decChars (digitsVal d))

mutual

/-- `fmt::Display for Noun`: an atom prints its grouped decimal value; a
cell prints `[`, the head, a space, and then the right spine flattened by
the list pretty-printer loop. -/
def printNoun : Noun → List Char
  | .atom d => printAtom d
  | .cell a b => '[' :: (printNoun a ++ ' ' :: printTail b)

/-- The list pretty-printer loop of `Display`: keep printing left children
followed by spaces while the cursor is a cell; at the final atom print its
digits and the closing `]`. -/
def printTail : Noun → List Char
  | .atom d => printAtom d ++ [']']
  | .cell a b => printNoun a ++ ' ' :: printTail b

end

/-! ### Conversion layer: pair conversion (`impl FromNoun for (T, U)`) -/


/-- `impl<T, U> FromNoun for (T, U)` (src lines 207-223): a cell converts
when both children convert (errors mapped to the opaque unit error by the
`map_err` calls); an atom fails. `fT` and `fU` are the component
`from_noun` conversions. -/
def fromNounPair {α β : Type} (fT : Noun → Except Unit α) (fU : Noun → Except Unit β) :
    Noun → Except Unit (α × β)
  | .cell a b =>
    match fT a with
    | .error _ => .error ()
    | .ok t =>
      match fU b with
      | .error _ => .error ()
      | .ok u => .ok (t, u)
  | .atom _ => .error ()

/-! ### The memoizing hash fold over the reference graph (C5)

`Noun::fold` memoizes on the *address* of each `Rc` node, and the hashing
closure threads one mutable `Hasher` through the whole traversal.  To state
claims about this faithfully the heap sharing must be visible, so nouns are
modelled as acyclic stores of nodes: the same index used twice is a shared
`Rc`, two distinct indices with equal contents are separate allocations.
A generic `Hasher` is modelled by the stream of write events it receives;
`finish` is a deterministic digest of the stream so far. -/


/-- One write into the `Hasher`: an atom's byte-slice write
(`digits.hash(state)`) or a `u64` write of an intermediate fold result. -/
inductive HEvent where
  | eSlice : List Nat → HEvent
  | eU64 : Nat → HEvent
deriving DecidableEq, BEq, Repr

/-- Abstract `Hasher::finish()`: a deterministic digest of the event stream
received so far (any injective encoding serves; claims compare streams). -/
def finishHash (trace : List HEvent) : Nat :=
  trace.foldl
    (fun a e =>
      match e with
      | .eSlice d => Nat.pair (Nat.pair a 0) (d.foldl Nat.pair 0)
      | .eU64 n => Nat.pair (Nat.pair a 1) n)
    0

/-- A node in a noun store: an atom, or a cell referencing two
strictly-earlier nodes (the `Rc` graph is acyclic by construction). -/
inductive GNode where
  | gatom : List Nat → GNode
  | gcell : Nat → Nat → GNode
deriving DecidableEq, BEq, Repr

/-- A heap-allocated noun: a store of nodes plus the root index.  A node
index models an `Rc` address: reusing an index shares the sub-noun. -/
structure NounGraph where
  nodes : List GNode
  root : Nat
deriving DecidableEq, BEq, Repr

/-- The logical noun value a graph node denotes. -/
def unfoldAux : Nat → List GNode → Nat → Option Noun
  | 0, _, _ => none
  | fuel+1, nodes, i =>
    match nodes.get? i with
    | some (.gatom d) => some (.atom d)
    | some (.gcell a b) =>
      if a < i ∧ b < i then
        match unfoldAux fuel nodes a, unfoldAux fuel nodes b with
        | some x, some y => some (.cell x y)
        | _, _ => none
      else none
    | none => none

/-- The logical noun value of a graph (its structural-equality identity). -/
def unfoldGraph (g : NounGraph) : Option Noun := unfoldAux (g.root + 1) g.nodes g.root

/-- `Noun::fold` specialised to the hashing closure of
`impl hash::Hash for Noun` (src lines 104-153): `memo` maps a node address
to its cached `u64`, `st` is the event stream written to the single
threaded hasher so far.  A memo hit returns the cached value and writes
nothing; an atom writes its digit slice and finishes; a cell recurses on
both children, writes their two `u64` results and finishes. -/
def hashFoldAux : Nat → List GNode → Nat → List (Nat × Nat) → List HEvent →
    Option (Nat × List (Nat × Nat) × List HEvent)
  | 0, _, _, _, _ => none
  | fuel+1, nodes, i, memo, st =>
    match memo.lookup i with
    | some v => some (v, memo, st)
    | none =>
      match nodes.get? i with
      | some (.gatom d) =>
        let st1 := st ++ [HEvent.eSlice d]
        let ret := finishHash st1
        some (ret, (i, ret) :: memo, st1)
      | some (.gcell a b) =>
        if a < i ∧ b < i then
          match hashFoldAux fuel nodes a memo st with
          | some (ra, memo1, st1) =>
            match hashFoldAux fuel nodes b memo1 st1 with
            | some (rb, memo2, st2) =>
              let st3 := st2 ++ [HEvent.eU64 ra, HEvent.eU64 rb]
              let ret := finishHash st3
              some (ret, (i, ret) :: memo2, st3)
            | none => none
          | none => none
        else none
      | none => none

/-- `impl hash::Hash for Noun`: run the fold with a fresh memo over the
caller's hasher, then hash the fold result into the same hasher
(`self.fold(|x| f(state, x)).hash(state)`).  Result: the full event stream
the caller's hasher receives, which determines the hash value. -/
def hashTrace (g : NounGraph) : Option (List HEvent) :=
  match hashFoldAux (g.root + 1) g.nodes g.root [] [] with
  | some (r, _, st) => some (st ++ [HEvent.eU64 r])
  | none => none

/-- Fresh allocation of every sub-noun of a tree (no sharing): the graph of
a noun whose parts were constructed separately. -/
def toGraphAux : Noun → List GNode → Nat × List GNode
  | .atom d, acc => (acc.length, acc ++ [.gatom d])
  | .cell a b, acc =>
    let ra := toGraphAux a acc
    let rb := toGraphAux b ra.2
    (rb.2.length, rb.2 ++ [.gcell ra.1 rb.1])

/-- A noun allocated with no internal sharing. -/
def toGraph (n : Noun) : NounGraph := ⟨(toGraphAux n []).2, (toGraphAux n []).1⟩

/-! ### Auxiliary notions for the round-trip and totality proofs -/

/-- Characters that terminate a digit run in `parse_atom`. -/
def isTermChar (c : Char) : Bool := c = '[' || c = ']' || c.isWhitespace

/-- An input whose head (if any) terminates a digit run. -/
def goodRest : List Char → Bool
  | [] => true
  | c :: _ => isTermChar c

/-- The digit vector is the canonical representation of its value. -/
def canonDigitsB (d : Digits) : Bool := natToDigits (digitsVal d) == d

/-- Every atom of the noun carries canonical digits (the invariant of
everything the parser or `Noun::from` produces). -/
def Noun.canonical : Noun → Bool
  | .atom d => canonDigitsB d
  | .cell a b => a.canonical && b.canonical

/-- Size measure for strong induction over nouns. -/
def Noun.size : Noun → Nat
  | .atom _ => 1
  | .cell a b => a.size + b.size + 1

/-- The right spine of a noun, as flattened by the `Display` list
pretty-printer: the left children in order, ending with the final atom. -/
def spineList : Noun → List Noun
  | .atom d => [.atom d]
  | .cell a b => a :: spineList b

/-- Right fold of an element list into nested cells (`none` on empty). -/
def rfold : List Noun → Option Noun
  | [] => none
  | x :: xs =>
    match rfold xs with
    | none => some x
    | some r => some (.cell x r)

/-! ### Theorems -/

theorem nock_on_succ (fuel : Nat) (subject formula : Noun) :
    nock_on (fuel+1) subject formula = nockStep (nock_on fuel) subject formula := rfl

theorem parse_succ (fuel : Nat) (l : List Char) :
    parse (fuel+1) l =
      match eatSpace l with
      | [] => .err
      | c :: t =>
        if c.isDigit then parse_atom (c :: t)
        else if c = '[' then parse_cell fuel (c :: t)
        else .err := by
  rw [parse]

theorem parse_cell_succ (fuel : Nat) (c : Char) (t : List Char) :
    parse_cell (fuel+1) (c :: t) =
      if c = '[' then
        (parse fuel t).bind fun er1 =>
        (parse fuel er1.2).bind fun er2 =>
        cellLoop fuel [er1.1, er2.1] er2.2
      else .panic := by
  rw [parse_cell]

theorem parse_cell_succ_nil (fuel : Nat) : parse_cell (fuel+1) [] = .panic := by
  rw [parse_cell]

theorem cellLoop_succ (fuel : Nat) (elts : List Noun) (l : List Char) :
    cellLoop (fuel+1) elts l =
      match eatSpace l with
      | [] => .err
      | c :: t =>
        if c.isDigit then
          (parse_atom (c :: t)).bind fun er => cellLoop fuel (elts ++ [er.1]) er.2
        else if c = '[' then
          (parse_cell fuel (c :: t)).bind fun er => cellLoop fuel (elts ++ [er.1]) er.2
        else if c = ']' then
          match collectNoun elts with
          | some m => .ok (m, t)
          | none => .panic
        else .err := by
  rw [cellLoop]

theorem ws_chars (c : Char) (h : c.isWhitespace = true) :
    c = ' ' ∨ c = '\t' ∨ c = '\r' ∨ c = '\n' := by
  simp only [Char.isWhitespace, Bool.or_eq_true, decide_eq_true_eq] at h
  tauto

theorem digit_not_ws (c : Char) (h : c.isDigit = true) : c.isWhitespace = false := by
  by_contra hw
  rw [Bool.not_eq_false] at hw
  rcases ws_chars c hw with h' | h' | h' | h' <;> (subst h'; exact absurd h (by decide))

theorem isTermChar_disj (c : Char) (h : isTermChar c = true) :
    c = '[' ∨ c = ']' ∨ c.isWhitespace = true := by
  simp only [isTermChar, Bool.or_eq_true, decide_eq_true_eq] at h
  tauto

theorem isTermChar_not_digit (c : Char) (h : isTermChar c = true) :
    c.isDigit = false ∧ c ≠ '.' := by
  rcases isTermChar_disj c h with h' | h' | h'
  · subst h'; exact ⟨rfl, by decide⟩
  · subst h'; exact ⟨rfl, by decide⟩
  · rcases ws_chars c h' with h2 | h2 | h2 | h2 <;> (subst h2; exact ⟨rfl, by decide⟩)

theorem eatSpace_not_ws (c : Char) (l : List Char) (h : c.isWhitespace = false) :
    eatSpace (c :: l) = c :: l := by
  simp [eatSpace, h]

theorem eatSpace_ws (c : Char) (l : List Char) (h : c.isWhitespace = true) :
    eatSpace (c :: l) = eatSpace l := by
  simp [eatSpace, h]

theorem eatSpace_length : ∀ l : List Char, (eatSpace l).length ≤ l.length := by
  intro l
  induction l with
  | nil => simp [eatSpace]
  | cons c t ih =>
    by_cases h : c.isWhitespace = true
    · rw [eatSpace_ws c t h]; simpa using Nat.le_succ_of_le ih
    · rw [eatSpace_not_ws c t (by simpa using h)]

theorem atomScan_append (s : List Char) :
    ∀ buf rest, (∀ c ∈ s, c.isDigit = true ∨ c = '.') →
    atomScan buf (s ++ rest) = atomScan (buf ++ s.filter Char.isDigit) rest := by
  induction s with
  | nil => intro buf rest _; simp [List.filter_nil]
  | cons c s' ih =>
    intro buf rest h
    have hc := h c (List.mem_cons_self c s')
    have htail : ∀ x ∈ s', x.isDigit = true ∨ x = '.' :=
      fun x hx => h x (List.mem_cons_of_mem _ hx)
    rcases hc with hd | hdot
    · rw [List.cons_append]
      show atomScan buf (c :: (s' ++ rest)) = _
      rw [show atomScan buf (c :: (s' ++ rest))
            = atomScan (buf ++ [c]) (s' ++ rest) by simp [atomScan, hd]]
      rw [ih (buf ++ [c]) rest htail]
      simp [List.filter_cons, hd]
    · subst hdot
      rw [List.cons_append]
      rw [show atomScan buf ('.' :: (s' ++ rest))
            = atomScan buf (s' ++ rest) by simp [atomScan]]
      rw [ih buf rest htail]
      simp [List.filter_cons]

theorem atomScan_stop (buf rest : List Char) (h : goodRest rest = true) :
    atomScan buf rest = some (buf, rest) := by
  match rest with
  | [] => rfl
  | c :: t =>
    have ht : isTermChar c = true := by simpa [goodRest] using h
    have h1 := isTermChar_not_digit c ht
    have h2 := isTermChar_disj c ht
    simp [atomScan, h1.1, h1.2, h2]

theorem atomScan_buf_digits :
    ∀ l buf buf' r, atomScan buf l = some (buf', r) →
      buf.all Char.isDigit = true → buf'.all Char.isDigit = true := by
  intro l
  induction l with
  | nil =>
    intro buf buf' r h hb
    simp [atomScan] at h
    rw [← h.1]; exact hb
  | cons c t ih =>
    intro buf buf' r h hb
    by_cases hd : c.isDigit = true
    · rw [show atomScan buf (c :: t) = atomScan (buf ++ [c]) t by
        simp [atomScan, hd]] at h
      exact ih _ _ _ h (by simp [List.all_append, hb, hd])
    · by_cases hdot : c = '.'
      · subst hdot
        rw [show atomScan buf ('.' :: t) = atomScan buf t by simp [atomScan]] at h
        exact ih _ _ _ h hb
      · by_cases hterm : (c = '[' ∨ c = ']' ∨ c.isWhitespace)
        · rw [show atomScan buf (c :: t) = some (buf, c :: t) by
            simp [atomScan, hd, hdot, hterm]] at h
          simp only [Option.some.injEq, Prod.mk.injEq] at h
          rw [← h.1]
          exact hb
        · rw [show atomScan buf (c :: t) = none by
            simp [atomScan, hd, hdot, hterm]] at h
          cases h

theorem atomScan_length :
    ∀ l buf buf' r, atomScan buf l = some (buf', r) →
      buf'.length + r.length ≤ buf.length + l.length ∧ buf.length ≤ buf'.length := by
  intro l
  induction l with
  | nil =>
    intro buf buf' r h
    simp only [atomScan, Option.some.injEq, Prod.mk.injEq] at h
    rw [← h.1, ← h.2]
    simp
  | cons c t ih =>
    intro buf buf' r h
    have hct : (c :: t).length = t.length + 1 := rfl
    by_cases hd : c.isDigit = true
    · rw [show atomScan buf (c :: t) = atomScan (buf ++ [c]) t by
        simp [atomScan, hd]] at h
      have hr := ih _ _ _ h
      have hbl : (buf ++ [c]).length = buf.length + 1 := by simp
      omega
    · by_cases hdot : c = '.'
      · subst hdot
        rw [show atomScan buf ('.' :: t) = atomScan buf t by simp [atomScan]] at h
        have hr := ih _ _ _ h
        omega
      · by_cases hterm : (c = '[' ∨ c = ']' ∨ c.isWhitespace)
        · rw [show atomScan buf (c :: t) = some (buf, c :: t) by
            simp [atomScan, hd, hdot, hterm]] at h
          simp only [Option.some.injEq, Prod.mk.injEq] at h
          rw [← h.1, ← h.2]
          omega
        · rw [show atomScan buf (c :: t) = none by
            simp [atomScan, hd, hdot, hterm]] at h
          cases h

theorem toNat_digitChar (d : Nat) (h : d < 10) : (digitChar d).toNat = 48 + d := by
  interval_cases d <;> decide

theorem isDigit_digitChar (d : Nat) (h : d < 10) : (digitChar d).isDigit = true := by
  interval_cases d <;> decide

theorem decDigitsAux_lt : ∀ fuel n, ∀ d ∈ decDigitsAux fuel n, d < 10 := by
  intro fuel
  induction fuel with
  | zero => intro n d hd; simp [decDigitsAux] at hd
  | succ fuel ih =>
    intro n d hd
    match n with
    | 0 => simp [decDigitsAux] at hd
    | n+1 =>
      rw [show decDigitsAux (fuel+1) (n+1)
            = (n+1) % 10 :: decDigitsAux fuel ((n+1) / 10) from rfl] at hd
      rcases List.mem_cons.mp hd with h | h
      · subst h; exact Nat.mod_lt _ (by omega)
      · exact ih _ _ h

theorem decVal_decDigitsAux :
    ∀ fuel n, n ≤ fuel →
      (decDigitsAux fuel n).foldr (fun x a => x + 10 * a) 0 = n := by
  intro fuel
  induction fuel with
  | zero =>
    intro n h
    have : n = 0 := by omega
    subst this; rfl
  | succ fuel ih =>
    intro n h
    match n with
    | 0 => rfl
    | n+1 =>
      have hlt : (n+1) / 10 < n + 1 := Nat.div_lt_self (by omega) (by omega)
      have hrec := ih ((n+1) / 10) (by omega)
      show (n+1) % 10 + 10 * ((decDigitsAux fuel ((n+1) / 10)).foldr
        (fun x a => x + 10 * a) 0) = n + 1
      rw [hrec]
      have := Nat.mod_add_div (n+1) 10
      omega

theorem foldr_digitChar_map (l : List Nat) (h : ∀ d ∈ l, d < 10) :
    List.foldr (fun c a => 10 * a + (c.toNat - 48)) 0 (l.map digitChar)
      = l.foldr (fun x a => x + 10 * a) 0 := by
  induction l with
  | nil => rfl
  | cons d l' ih =>
    have hd := h d (List.mem_cons_self d l')
    have ht : ∀ x ∈ l', x < 10 := fun x hx => h x (List.mem_cons_of_mem _ hx)
    simp only [List.map_cons, List.foldr_cons, ih ht, toNat_digitChar d hd]
    omega

theorem decValue_decChars (v : Nat) : decValue (decChars v) = v := by
  by_cases h0 : v = 0
  · subst h0; rfl
  · unfold decValue decChars
    rw [if_neg h0]
    rw [List.map_reverse, List.foldl_reverse]
    rw [foldr_digitChar_map _ (decDigitsAux_lt v v)]
    exact decVal_decDigitsAux v v (Nat.le_refl v)

theorem decChars_all_digit (v : Nat) : ∀ c ∈ decChars v, c.isDigit = true := by
  intro c hc
  unfold decChars at hc
  by_cases h0 : v = 0
  · rw [if_pos h0] at hc
    simp at hc
    subst hc; decide
  · rw [if_neg h0] at hc
    rw [List.map_reverse] at hc
    rcases List.mem_map.mp (List.mem_reverse.mp hc) with ⟨d, hd, rfl⟩
    exact isDigit_digitChar d (decDigitsAux_lt v v d hd)

theorem decChars_head :
    ∀ v, ∃ c t, decChars v = c :: t ∧ c.isDigit = true := by
  intro v
  match hc : decChars v with
  | [] =>
    exfalso
    unfold decChars at hc
    by_cases h0 : v = 0
    · rw [if_pos h0] at hc; cases hc
    · rw [if_neg h0] at hc
      match v, h0 with
      | v'+1, _ =>
        rw [show decDigitsAux (v'+1) (v'+1)
              = (v'+1) % 10 :: decDigitsAux v' ((v'+1) / 10) from rfl] at hc
        simp at hc
  | c :: t =>
    exact ⟨c, t, rfl, decChars_all_digit v c (hc ▸ List.mem_cons_self c t)⟩

theorem dotSepAux_mem :
    ∀ s p i c, c ∈ dotSepAux p i s → c ∈ s ∨ c = '.' := by
  intro s p
  induction s with
  | nil => intro i c hc; simp [dotSepAux] at hc
  | cons x s' ih =>
    intro i c hc
    rw [show dotSepAux p i (x :: s')
          = (if 0 < i ∧ i % 3 = p then ['.', x] else [x]) ++ dotSepAux p (i+1) s'
        from rfl] at hc
    rcases List.mem_append.mp hc with h | h
    · split at h
      · rcases List.mem_cons.mp h with h' | h'
        · exact Or.inr h'
        · simp at h'; subst h'; exact Or.inl (List.mem_cons_self ..)
      · simp at h; subst h; exact Or.inl (List.mem_cons_self ..)
    · rcases ih (i+1) c h with h' | h'
      · exact Or.inl (List.mem_cons_of_mem _ h')
      · exact Or.inr h'

theorem dotSepAux_filter :
    ∀ s p i, (∀ c ∈ s, c.isDigit = true) →
      (dotSepAux p i s).filter Char.isDigit = s := by
  intro s p
  induction s with
  | nil => intro i _; rfl
  | cons x s' ih =>
    intro i h
    have hx := h x (List.mem_cons_self x s')
    have ht : ∀ c ∈ s', c.isDigit = true := fun c hc => h c (List.mem_cons_of_mem _ hc)
    rw [show dotSepAux p i (x :: s')
          = (if 0 < i ∧ i % 3 = p then ['.', x] else [x]) ++ dotSepAux p (i+1) s'
        from rfl]
    rw [List.filter_append]
    rw [ih (i+1) ht]
    split
    · simp [List.filter_cons, hx]
    · simp [List.filter_cons, hx]

theorem dotSepAux_head (p : Nat) (c : Char) (t : List Char) :
    dotSepAux p 0 (c :: t) = c :: dotSepAux p 1 t := by
  rw [show dotSepAux p 0 (c :: t)
        = (if 0 < 0 ∧ 0 % 3 = p then ['.', c] else [c]) ++ dotSepAux p 1 t from rfl]
  simp

theorem printAtom_chars (d : Digits) :
    ∀ c ∈ printAtom d, c.isDigit = true ∨ c = '.' := by
  intro c hc
  unfold printAtom dotSep at hc
  rcases dotSepAux_mem _ _ _ c hc with h | h
  · exact Or.inl (decChars_all_digit _ c h)
  · exact Or.inr h

theorem printAtom_head (d : Digits) :
    ∃ c t, printAtom d = c :: t ∧ c.isDigit = true := by
  obtain ⟨c, t, hct, hcd⟩ := decChars_head (digitsVal d)
  refine ⟨c, dotSepAux ((decChars (digitsVal d)).length % 3) 1 t, ?_, hcd⟩
  unfold printAtom dotSep
  rw [hct, dotSepAux_head]

theorem printAtom_filter (d : Digits) :
    (printAtom d).filter Char.isDigit = decChars (digitsVal d) := by
  unfold printAtom dotSep
  exact dotSepAux_filter _ _ _ (decChars_all_digit _)

theorem parse_atom_printAtom (d : Digits) (rest : List Char)
    (hg : goodRest rest = true) :
    parse_atom (printAtom d ++ rest) = .ok (.atom (natToDigits (digitsVal d)), rest) := by
  unfold parse_atom
  rw [atomScan_append _ [] rest (printAtom_chars d)]
  rw [List.nil_append, printAtom_filter]
  rw [atomScan_stop _ rest hg]
  have hne : decChars (digitsVal d) ≠ [] := by
    obtain ⟨c, t, hct, _⟩ := decChars_head (digitsVal d)
    rw [hct]; simp
  have hall : (decChars (digitsVal d)).all Char.isDigit = true := by
    rw [List.all_eq_true]
    intro c hc
    exact decChars_all_digit _ c hc
  show (if decChars (digitsVal d) = [] then RRes.err
        else if (decChars (digitsVal d)).all Char.isDigit = true then
          RRes.ok (Noun.atom (natToDigits (decValue (decChars (digitsVal d)))), rest)
        else RRes.panic) = _
  rw [if_neg hne, if_pos hall, decValue_decChars]

theorem digitsVal_natToDigitsAux :
    ∀ fuel n, n ≤ fuel → digitsVal (natToDigitsAux fuel n) = n := by
  intro fuel
  induction fuel with
  | zero =>
    intro n h
    have : n = 0 := by omega
    subst this; rfl
  | succ fuel ih =>
    intro n h
    match n with
    | 0 => rfl
    | n+1 =>
      have hlt : (n+1) / 256 < n + 1 := Nat.div_lt_self (by omega) (by omega)
      have hrec := ih ((n+1) / 256) (by omega)
      show (n+1) % 256 + 256 * digitsVal (natToDigitsAux fuel ((n+1) / 256)) = n + 1
      rw [hrec]
      have := Nat.mod_add_div (n+1) 256
      omega

theorem digitsVal_natToDigits (n : Nat) : digitsVal (natToDigits n) = n :=
  digitsVal_natToDigitsAux n n (Nat.le_refl n)

theorem collectNoun_cons (x : Noun) (xs : List Noun) :
    collectNoun (x :: xs) =
      match collectNoun xs with
      | none => some x
      | some a => some (.cell x a) := by
  unfold collectNoun
  rw [List.reverse_cons, List.foldl_append]
  rfl

theorem collectNoun_eq_rfold : ∀ l, collectNoun l = rfold l := by
  intro l
  induction l with
  | nil => rfl
  | cons x xs ih =>
    rw [collectNoun_cons, ih]
    cases hr : rfold xs <;> simp [rfold, hr]

theorem rfold_spine (b : Noun) : rfold (spineList b) = some b := by
  induction b with
  | atom d => rfl
  | cell a b _ ihb =>
    show rfold (a :: spineList b) = some (.cell a b)
    simp [rfold, ihb]

theorem collect_cons_spine (x y : Noun) :
    collectNoun (x :: spineList y) = some (.cell x y) := by
  rw [collectNoun_eq_rfold]
  show rfold (x :: spineList y) = _
  simp [rfold, rfold_spine y]

theorem collectNoun_ne_none (l : List Noun) (h : l ≠ []) : collectNoun l ≠ none := by
  match l with
  | x :: xs =>
    rw [collectNoun_cons]
    cases collectNoun xs <;> simp

theorem canonical_atom_natToDigits (v : Nat) :
    (Noun.atom (natToDigits v)).canonical = true := by
  show canonDigitsB (natToDigits v) = true
  unfold canonDigitsB
  rw [digitsVal_natToDigits]
  simp

theorem canonical_atom_digits (d : Digits) (h : (Noun.atom d).canonical = true) :
    natToDigits (digitsVal d) = d := by
  have h' : canonDigitsB d = true := h
  unfold canonDigitsB at h'
  simpa using h'

theorem canonical_cell (a b : Noun) (h : (Noun.cell a b).canonical = true) :
    a.canonical = true ∧ b.canonical = true := by
  have h' : (a.canonical && b.canonical) = true := h
  simpa using h'

theorem Noun.size_pos (n : Noun) : 1 ≤ n.size := by
  cases n <;> (simp only [Noun.size]; omega)

theorem printNoun_head (n : Noun) :
    ∃ c t, printNoun n = c :: t ∧ (c.isDigit = true ∨ c = '[') := by
  match n with
  | .atom d =>
    obtain ⟨c, t, hct, hcd⟩ := printAtom_head d
    exact ⟨c, t, hct, Or.inl hcd⟩
  | .cell a b =>
    exact ⟨'[', printNoun a ++ ' ' :: printTail b, rfl, Or.inr rfl⟩

theorem eatSpace_printNoun (n : Noun) (r : List Char) :
    eatSpace (printNoun n ++ r) = printNoun n ++ r := by
  obtain ⟨c, t, hct, hcd⟩ := printNoun_head n
  rw [hct, List.cons_append]
  apply eatSpace_not_ws
  rcases hcd with h | h
  · exact digit_not_ws c h
  · subst h; decide

theorem eatSpace_space (l : List Char) : eatSpace (' ' :: l) = eatSpace l :=
  eatSpace_ws ' ' l (by decide)

theorem parse_eatSpace_congr (fuel : Nat) (l1 l2 : List Char)
    (h : eatSpace l1 = eatSpace l2) :
    parse (fuel+1) l1 = parse (fuel+1) l2 := by
  rw [parse_succ, parse_succ, h]

theorem cellLoop_eatSpace_congr (fuel : Nat) (elts : List Noun) (l1 l2 : List Char)
    (h : eatSpace l1 = eatSpace l2) :
    cellLoop (fuel+1) elts l1 = cellLoop (fuel+1) elts l2 := by
  rw [cellLoop_succ, cellLoop_succ, h]

theorem parse_bracket (fuel : Nat) (t : List Char) :
    parse (fuel+1) ('[' :: t) = parse_cell fuel ('[' :: t) := by
  rw [parse_succ]
  rw [eatSpace_not_ws _ _ (by decide)]
  show (if ('[').isDigit then parse_atom ('[' :: t)
        else if '[' = '[' then parse_cell fuel ('[' :: t) else .err) = _
  rw [if_neg (by decide), if_pos rfl]

theorem parse_digit (fuel : Nat) (c : Char) (t : List Char) (h : c.isDigit = true) :
    parse (fuel+1) (c :: t) = parse_atom (c :: t) := by
  rw [parse_succ]
  rw [eatSpace_not_ws _ _ (digit_not_ws c h)]
  show (if c.isDigit then parse_atom (c :: t)
        else if c = '[' then parse_cell fuel (c :: t) else .err) = _
  rw [if_pos h]

theorem cellLoop_digit (fuel : Nat) (elts : List Noun) (c : Char) (t : List Char)
    (h : c.isDigit = true) :
    cellLoop (fuel+1) elts (c :: t)
      = (parse_atom (c :: t)).bind fun er => cellLoop fuel (elts ++ [er.1]) er.2 := by
  rw [cellLoop_succ]
  rw [eatSpace_not_ws _ _ (digit_not_ws c h)]
  show (if c.isDigit then
          (parse_atom (c :: t)).bind fun er => cellLoop fuel (elts ++ [er.1]) er.2
        else if c = '[' then
          (parse_cell fuel (c :: t)).bind fun er => cellLoop fuel (elts ++ [er.1]) er.2
        else if c = ']' then
          match collectNoun elts with
          | some m => .ok (m, t)
          | none => .panic
        else .err) = _
  rw [if_pos h]

theorem cellLoop_bracket (fuel : Nat) (elts : List Noun) (t : List Char) :
    cellLoop (fuel+1) elts ('[' :: t)
      = (parse_cell fuel ('[' :: t)).bind fun er => cellLoop fuel (elts ++ [er.1]) er.2 := by
  rw [cellLoop_succ]
  rw [eatSpace_not_ws _ _ (by decide)]
  show (if ('[').isDigit then
          (parse_atom ('[' :: t)).bind fun er => cellLoop fuel (elts ++ [er.1]) er.2
        else if '[' = '[' then
          (parse_cell fuel ('[' :: t)).bind fun er => cellLoop fuel (elts ++ [er.1]) er.2
        else if '[' = ']' then
          match collectNoun elts with
          | some m => .ok (m, t)
          | none => .panic
        else .err) = _
  rw [if_neg (by decide), if_pos rfl]

theorem cellLoop_close (fuel : Nat) (elts : List Noun) (t : List Char) :
    cellLoop (fuel+1) elts (']' :: t)
      = match collectNoun elts with
        | some m => .ok (m, t)
        | none => .panic := by
  rw [cellLoop_succ]
  rw [eatSpace_not_ws _ _ (by decide)]
  show (if (']').isDigit then
          (parse_atom (']' :: t)).bind fun er => cellLoop fuel (elts ++ [er.1]) er.2
        else if ']' = '[' then
          (parse_cell fuel (']' :: t)).bind fun er => cellLoop fuel (elts ++ [er.1]) er.2
        else if ']' = ']' then
          match collectNoun elts with
          | some m => .ok (m, t)
          | none => .panic
        else .err) = _
  rw [if_neg (by decide), if_neg (by decide), if_pos rfl]

theorem parse_printAtom (fuel : Nat) (d : Digits) (rest : List Char)
    (hg : goodRest rest = true) :
    parse (fuel+1) (printAtom d ++ rest)
      = .ok (.atom (natToDigits (digitsVal d)), rest) := by
  obtain ⟨c, t, hct, hcd⟩ := printAtom_head d
  rw [hct, List.cons_append, parse_digit fuel c (t ++ rest) hcd]
  rw [← List.cons_append, ← hct]
  exact parse_atom_printAtom d rest hg

theorem cellLoop_of_parse (fuel : Nat) (acc : List Noun) (l r2 : List Char) (u : Noun)
    (hes : eatSpace l = l) (h : parse (fuel+1) l = .ok (u, r2)) :
    cellLoop (fuel+1) acc l = cellLoop fuel (acc ++ [u]) r2 := by
  cases l with
  | nil =>
    rw [parse_succ] at h
    simp [eatSpace] at h
  | cons c t =>
    by_cases hd : c.isDigit = true
    · rw [parse_digit fuel c t hd] at h
      rw [cellLoop_digit fuel acc c t hd, h]
      rfl
    · by_cases hb : c = '['
      · subst hb
        rw [parse_bracket] at h
        rw [cellLoop_bracket, h]
        rfl
      · exfalso
        rw [parse_succ, hes] at h
        revert h
        show (if c.isDigit then parse_atom (c :: t)
              else if c = '[' then parse_cell fuel (c :: t) else .err) = _ → False
        rw [if_neg hd, if_neg hb]
        intro h
        cases h

theorem goodRest_cons (c : Char) (l : List Char) (h : isTermChar c = true) :
    goodRest (c :: l) = true := h

theorem printNoun_length_pos (n : Noun) : 1 ≤ (printNoun n).length := by
  obtain ⟨c, t, hct, _⟩ := printNoun_head n
  rw [hct]; simp

/-- The central printer/parser agreement: a canonical noun printed with
`Display` and followed by a digit-run terminator parses back to itself
(first conjunct), and the trailing-noun loop of `parse_cell` reads a
printed right spine back into the element list it came from (second
conjunct).  Strong induction on the noun size. -/
theorem roundtrip_strong : ∀ k n, Noun.size n ≤ k →
    (∀ rest f, goodRest rest = true → n.canonical = true →
      2 * (printNoun n ++ rest).length + 4 ≤ f →
      parse f (printNoun n ++ rest) = .ok (n, rest))
    ∧ (∀ acc rest f m, goodRest rest = true → n.canonical = true → acc ≠ [] →
      2 * (printTail n ++ rest).length + 4 ≤ f →
      collectNoun (acc ++ spineList n) = some m →
      cellLoop f acc (printTail n ++ rest) = .ok (m, rest)) := by
  intro k
  induction k with
  | zero =>
    intro n hn
    exact absurd hn (by have := Noun.size_pos n; omega)
  | succ k ih =>
    intro n hn
    cases n with
    | atom d =>
      refine ⟨?_, ?_⟩
      · intro rest f hg hc hf
        obtain ⟨f1, rfl⟩ : ∃ f1, f = f1 + 1 := ⟨f - 1, by omega⟩
        rw [show printNoun (.atom d) = printAtom d from rfl]
        rw [parse_printAtom f1 d rest hg]
        rw [canonical_atom_digits d hc]
      · intro acc rest f m hg hc hacc hf hm
        obtain ⟨f2, rfl⟩ : ∃ f2, f = f2 + 2 := ⟨f - 2, by omega⟩
        have hpt : printTail (.atom d) ++ rest = printAtom d ++ (']' :: rest) := by
          show (printAtom d ++ [']']) ++ rest = _
          simp
        rw [hpt]
        obtain ⟨c, t, hct, hcd⟩ := printAtom_head d
        rw [hct, List.cons_append]
        rw [cellLoop_digit (f2+1) acc c _ hcd]
        rw [← List.cons_append, ← hct]
        rw [parse_atom_printAtom d (']' :: rest) (goodRest_cons _ _ (by decide))]
        rw [canonical_atom_digits d hc]
        show cellLoop (f2+1) (acc ++ [Noun.atom d]) (']' :: rest) = _
        rw [cellLoop_close f2 (acc ++ [Noun.atom d]) rest]
        rw [show acc ++ [Noun.atom d] = acc ++ spineList (.atom d) from rfl]
        rw [hm]
    | cell a b =>
      have hsz : a.size + b.size + 1 ≤ k + 1 := by
        simpa [Noun.size] using hn
      have hsa : a.size ≤ k := by have := Noun.size_pos b; omega
      have hsb : b.size ≤ k := by have := Noun.size_pos a; omega
      refine ⟨?_, ?_⟩
      · intro rest f hg hc hf
        obtain ⟨hca, hcb⟩ := canonical_cell a b hc
        have hpa1 := printNoun_length_pos a
        have hL : (printNoun (.cell a b) ++ rest).length
            = (printNoun a).length + (printTail b).length + rest.length + 2 := by
          show (('[' :: (printNoun a ++ ' ' :: printTail b)) ++ rest).length = _
          simp
          omega
        obtain ⟨f2, rfl⟩ : ∃ f2, f = f2 + 2 := ⟨f - 2, by omega⟩
        rw [show printNoun (.cell a b) = '[' :: (printNoun a ++ ' ' :: printTail b)
            from rfl]
        rw [List.cons_append]
        rw [show parse (f2+2) ('[' :: ((printNoun a ++ ' ' :: printTail b) ++ rest))
              = parse_cell (f2+1) ('[' :: ((printNoun a ++ ' ' :: printTail b) ++ rest))
            from parse_bracket (f2+1) _]
        rw [parse_cell_succ f2 '[' _, if_pos rfl]
        rw [List.append_assoc, List.cons_append]
        have hPa := (ih a hsa).1 (' ' :: (printTail b ++ rest)) f2
          (goodRest_cons _ _ (by decide)) hca
          (by simp only [List.length_append, List.length_cons] at hL hf ⊢; omega)
        rw [hPa]
        show (parse f2 (' ' :: (printTail b ++ rest))).bind
          (fun er2 => cellLoop f2 [a, er2.1] er2.2) = _
        obtain ⟨f3, rfl⟩ : ∃ f3, f2 = f3 + 1 := ⟨f2 - 1, by omega⟩
        rw [parse_eatSpace_congr f3 _ _ (eatSpace_space _)]
        cases b with
        | atom db =>
          rw [show printTail (.atom db) ++ rest = printAtom db ++ (']' :: rest) by
            show (printAtom db ++ [']']) ++ rest = _
            simp]
          rw [parse_printAtom f3 db (']' :: rest) (goodRest_cons _ _ (by decide))]
          rw [canonical_atom_digits db hcb]
          show cellLoop (f3+1) [a, Noun.atom db] (']' :: rest) = _
          rw [cellLoop_close f3 [a, Noun.atom db] rest]
          rw [show ([a, Noun.atom db] : List Noun) = a :: spineList (.atom db) from rfl]
          rw [collect_cons_spine a (.atom db)]
        | cell u v =>
          obtain ⟨hcu, hcv⟩ := canonical_cell u v hcb
          have hb : (Noun.cell u v).size = u.size + v.size + 1 := rfl
          have hsu : u.size ≤ k := by have := Noun.size_pos v; omega
          have hsv : v.size ≤ k := by have := Noun.size_pos u; omega
          rw [show printTail (.cell u v) ++ rest
                = printNoun u ++ (' ' :: (printTail v ++ rest)) by
              show (printNoun u ++ ' ' :: printTail v) ++ rest = _
              simp]
          have hPu := (ih u hsu).1 (' ' :: (printTail v ++ rest)) (f3+1)
            (goodRest_cons _ _ (by decide)) hcu
            (by
              simp only [printNoun, printTail, List.length_append,
                List.length_cons] at hf ⊢
              omega)
          rw [hPu]
          show cellLoop (f3+1) [a, u] (' ' :: (printTail v ++ rest)) = _
          rw [cellLoop_eatSpace_congr f3 [a, u] _ _ (eatSpace_space _)]
          refine (ih v hsv).2 [a, u] rest (f3+1) (.cell a (.cell u v)) hg hcv
            (by simp)
            (by
              simp only [printNoun, printTail, List.length_append,
                List.length_cons] at hf ⊢
              omega)
            ?_
          rw [show ([a, u] : List Noun) ++ spineList v = a :: spineList (.cell u v)
              from rfl]
          exact collect_cons_spine a (.cell u v)
      · intro acc rest f m hg hc hacc hf hm
        obtain ⟨hca, hcb⟩ := canonical_cell a b hc
        have hpa1 := printNoun_length_pos a
        have hLsp : (printTail (.cell a b) ++ rest).length
            = (printNoun a).length + (printTail b).length + rest.length + 1 := by
          show ((printNoun a ++ ' ' :: printTail b) ++ rest).length = _
          simp
          omega
        obtain ⟨f1, rfl⟩ : ∃ f1, f = f1 + 1 := ⟨f - 1, by omega⟩
        rw [show printTail (.cell a b) ++ rest
              = printNoun a ++ (' ' :: (printTail b ++ rest)) by
            show (printNoun a ++ ' ' :: printTail b) ++ rest = _
            simp]
        have hPa := (ih a hsa).1 (' ' :: (printTail b ++ rest)) (f1+1)
          (goodRest_cons _ _ (by decide)) hca
          (by
            simp only [List.length_append, List.length_cons] at hLsp hf ⊢
            omega)
        rw [cellLoop_of_parse f1 acc _ _ a (eatSpace_printNoun a _) hPa]
        obtain ⟨f2, rfl⟩ : ∃ f2, f1 = f2 + 1 := ⟨f1 - 1, by
          simp only [List.length_append, List.length_cons] at hLsp hf
          omega⟩
        rw [cellLoop_eatSpace_congr f2 (acc ++ [a]) _ _ (eatSpace_space _)]
        refine (ih b hsb).2 (acc ++ [a]) rest (f2+1) m hg hcb (by simp)
          (by
            simp only [List.length_append, List.length_cons] at hLsp hf ⊢
            omega)
          ?_
        rw [List.append_assoc]
        exact hm

theorem RRes.bind_ok {α β : Type} (a : α) (f : α → RRes β) :
    (RRes.ok a).bind f = f a := rfl

theorem RRes.bind_err {α β : Type} (f : α → RRes β) :
    (RRes.err : RRes α).bind f = .err := rfl

theorem RRes.bind_panic {α β : Type} (f : α → RRes β) :
    (RRes.panic : RRes α).bind f = .panic := rfl

theorem RRes.bind_fuelOut {α β : Type} (f : α → RRes β) :
    (RRes.fuelOut : RRes α).bind f = .fuelOut := rfl

theorem from_str_printNoun (n : Noun) (hc : n.canonical = true) :
    from_str (printNoun n) = .ok n := by
  have h := (roundtrip_strong n.size n (Nat.le_refl _)).1 []
    (2 * (printNoun n).length + 4) rfl hc (by simp)
  rw [List.append_nil] at h
  unfold from_str
  rw [h]

theorem parse_atom_canonical (l : List Char) (n : Noun) (r : List Char)
    (h : parse_atom l = .ok (n, r)) : n.canonical = true := by
  unfold parse_atom at h
  split at h
  · cases h
  · split at h
    · cases h
    · split at h
      · simp only [RRes.ok.injEq, Prod.mk.injEq] at h
        rw [← h.1]
        exact canonical_atom_natToDigits _
      · cases h

theorem collect_canonical :
    ∀ l : List Noun, (∀ x ∈ l, x.canonical = true) →
      ∀ m, collectNoun l = some m → m.canonical = true := by
  intro l
  induction l with
  | nil => intro _ m hm; cases hm
  | cons x xs ih =>
    intro hall m hm
    rw [collectNoun_cons] at hm
    split at hm
    · simp only [Option.some.injEq] at hm
      rw [← hm]
      exact hall x (List.mem_cons_self x xs)
    · rename_i r hx
      simp only [Option.some.injEq] at hm
      rw [← hm]
      have hxc := hall x (List.mem_cons_self x xs)
      have hrc := ih (fun y hy => hall y (List.mem_cons_of_mem _ hy)) r hx
      show (x.canonical && r.canonical) = true
      simp [hxc, hrc]

theorem parse_canonical :
    ∀ fuel,
      (∀ l n r, parse fuel l = .ok (n, r) → n.canonical = true)
      ∧ (∀ l n r, parse_cell fuel l = .ok (n, r) → n.canonical = true)
      ∧ (∀ elts l n r, (∀ x ∈ elts, x.canonical = true) →
          cellLoop fuel elts l = .ok (n, r) → n.canonical = true) := by
  intro fuel
  induction fuel with
  | zero =>
    refine ⟨?_, ?_, ?_⟩
    · intro l n r h; cases h
    · intro l n r h; cases h
    · intro elts l n r _ h; cases h
  | succ fuel ih =>
    obtain ⟨ihp, ihc, ihl⟩ := ih
    refine ⟨?_, ?_, ?_⟩
    · intro l n r h
      rw [parse_succ] at h
      split at h
      · cases h
      · split at h
        · exact parse_atom_canonical _ _ _ h
        · split at h
          · exact ihc _ _ _ h
          · cases h
    · intro l n r h
      cases l with
      | nil => rw [parse_cell_succ_nil] at h; cases h
      | cons c t =>
        rw [parse_cell_succ] at h
        split at h
        · cases h1 : parse fuel t with
          | ok er1 =>
            obtain ⟨e1, r1⟩ := er1
            rw [h1, RRes.bind_ok] at h
            cases h2 : parse fuel r1 with
            | ok er2 =>
              obtain ⟨e2, r2⟩ := er2
              rw [h2, RRes.bind_ok] at h
              refine ihl [e1, e2] _ _ _ ?_ h
              intro x hx
              rcases List.mem_cons.mp hx with hx | hx
              · subst hx; exact ihp _ _ _ h1
              · simp at hx; subst hx; exact ihp _ _ _ h2
            | err => rw [h2, RRes.bind_err] at h; cases h
            | panic => rw [h2, RRes.bind_panic] at h; cases h
            | fuelOut => rw [h2, RRes.bind_fuelOut] at h; cases h
          | err => rw [h1, RRes.bind_err] at h; cases h
          | panic => rw [h1, RRes.bind_panic] at h; cases h
          | fuelOut => rw [h1, RRes.bind_fuelOut] at h; cases h
        · cases h
    · intro elts l n r hall h
      rw [cellLoop_succ] at h
      split at h
      · cases h
      · split at h
        · cases h1 : parse_atom _ with
          | ok er =>
            obtain ⟨e, r'⟩ := er
            rw [h1, RRes.bind_ok] at h
            refine ihl (elts ++ [e]) _ _ _ ?_ h
            intro x hx
            rcases List.mem_append.mp hx with hx | hx
            · exact hall x hx
            · simp at hx; subst hx; exact parse_atom_canonical _ _ _ h1
          | err => rw [h1, RRes.bind_err] at h; cases h
          | panic => rw [h1, RRes.bind_panic] at h; cases h
          | fuelOut => rw [h1, RRes.bind_fuelOut] at h; cases h
        · split at h
          · cases h1 : parse_cell fuel _ with
            | ok er =>
              obtain ⟨e, r'⟩ := er
              rw [h1, RRes.bind_ok] at h
              refine ihl (elts ++ [e]) _ _ _ ?_ h
              intro x hx
              rcases List.mem_append.mp hx with hx | hx
              · exact hall x hx
              · simp at hx; subst hx; exact ihc _ _ _ h1
            | err => rw [h1, RRes.bind_err] at h; cases h
            | panic => rw [h1, RRes.bind_panic] at h; cases h
            | fuelOut => rw [h1, RRes.bind_fuelOut] at h; cases h
          · split at h
            · split at h
              · rename_i m' hm'
                simp only [RRes.ok.injEq, Prod.mk.injEq] at h
                rw [← h.1]
                exact collect_canonical elts hall m' hm'
              · cases h
            · cases h

theorem parse_atom_ne_fuelOut (l : List Char) : parse_atom l ≠ .fuelOut := by
  unfold parse_atom
  split
  · simp
  · split
    · simp
    · split <;> simp

theorem parse_atom_no_panic (l : List Char) : parse_atom l ≠ .panic := by
  unfold parse_atom
  split
  · simp
  · rename_i br buf rest heq
    split
    · simp
    · split
      · simp
      · rename_i hbuf hall
        exact absurd (atomScan_buf_digits l [] buf rest heq rfl) hall

theorem parse_atom_length (l : List Char) (n : Noun) (r : List Char)
    (h : parse_atom l = .ok (n, r)) : r.length < l.length := by
  unfold parse_atom at h
  split at h
  · cases h
  · rename_i br buf rest heq
    split at h
    · cases h
    · rename_i hbuf
      split at h
      · simp only [RRes.ok.injEq, Prod.mk.injEq] at h
        obtain ⟨-, h2⟩ := h
        subst h2
        have hl := atomScan_length l [] buf rest heq
        have hb1 : 1 ≤ buf.length := by
          cases buf with
          | nil => exact absurd rfl hbuf
          | cons x xs => simp
        simp only [List.length_nil] at hl
        omega
      · cases h

theorem parse_length :
    ∀ fuel,
      (∀ l n r, parse fuel l = .ok (n, r) → r.length < l.length)
      ∧ (∀ l n r, parse_cell fuel l = .ok (n, r) → r.length < l.length)
      ∧ (∀ elts l n r, cellLoop fuel elts l = .ok (n, r) → r.length < l.length) := by
  intro fuel
  induction fuel with
  | zero =>
    refine ⟨?_, ?_, ?_⟩
    · intro l n r h; cases h
    · intro l n r h; cases h
    · intro e l n r h; cases h
  | succ fuel ih =>
    obtain ⟨ihp, ihc, ihl⟩ := ih
    refine ⟨?_, ?_, ?_⟩
    · intro l n r h
      rw [parse_succ] at h
      split at h
      · cases h
      · rename_i c t heq
        have hle : (c :: t).length ≤ l.length := heq ▸ eatSpace_length l
        split at h
        · have := parse_atom_length _ _ _ h
          omega
        · split at h
          · have := ihc _ _ _ h
            omega
          · cases h
    · intro l n r h
      cases l with
      | nil => rw [parse_cell_succ_nil] at h; cases h
      | cons c t =>
        rw [parse_cell_succ] at h
        split at h
        · cases h1 : parse fuel t with
          | ok er1 =>
            obtain ⟨e1, r1⟩ := er1
            rw [h1, RRes.bind_ok] at h
            cases h2 : parse fuel r1 with
            | ok er2 =>
              obtain ⟨e2, r2⟩ := er2
              rw [h2, RRes.bind_ok] at h
              have d1 := ihp _ _ _ h1
              have d2 := ihp _ _ _ h2
              have d3 : r.length < r2.length := ihl _ _ _ _ h
              have hct : (c :: t).length = t.length + 1 := rfl
              omega
            | err => rw [h2, RRes.bind_err] at h; cases h
            | panic => rw [h2, RRes.bind_panic] at h; cases h
            | fuelOut => rw [h2, RRes.bind_fuelOut] at h; cases h
          | err => rw [h1, RRes.bind_err] at h; cases h
          | panic => rw [h1, RRes.bind_panic] at h; cases h
          | fuelOut => rw [h1, RRes.bind_fuelOut] at h; cases h
        · cases h
    · intro elts l n r h
      rw [cellLoop_succ] at h
      split at h
      · cases h
      · rename_i c t heq
        have hle : (c :: t).length ≤ l.length := heq ▸ eatSpace_length l
        have hct : (c :: t).length = t.length + 1 := rfl
        split at h
        · cases h1 : parse_atom (c :: t) with
          | ok er =>
            obtain ⟨e, r'⟩ := er
            rw [h1, RRes.bind_ok] at h
            have d1 := parse_atom_length _ _ _ h1
            have d2 : r.length < r'.length := ihl _ _ _ _ h
            omega
          | err => rw [h1, RRes.bind_err] at h; cases h
          | panic => rw [h1, RRes.bind_panic] at h; cases h
          | fuelOut => rw [h1, RRes.bind_fuelOut] at h; cases h
        · split at h
          · cases h1 : parse_cell fuel (c :: t) with
            | ok er =>
              obtain ⟨e, r'⟩ := er
              rw [h1, RRes.bind_ok] at h
              have d1 := ihc _ _ _ h1
              have d2 : r.length < r'.length := ihl _ _ _ _ h
              omega
            | err => rw [h1, RRes.bind_err] at h; cases h
            | panic => rw [h1, RRes.bind_panic] at h; cases h
            | fuelOut => rw [h1, RRes.bind_fuelOut] at h; cases h
          · split at h
            · split at h
              · simp only [RRes.ok.injEq, Prod.mk.injEq] at h
                obtain ⟨-, h2⟩ := h
                subst h2
                omega
              · cases h
            · cases h

theorem parse_adequate :
    ∀ fuel,
      (∀ l, 2 * l.length + 2 ≤ fuel → parse fuel l ≠ .fuelOut)
      ∧ (∀ l, 2 * l.length + 1 ≤ fuel → parse_cell fuel l ≠ .fuelOut)
      ∧ (∀ elts l, 2 * l.length + 2 ≤ fuel → cellLoop fuel elts l ≠ .fuelOut) := by
  intro fuel
  induction fuel with
  | zero =>
    refine ⟨?_, ?_, ?_⟩
    · intro l hl; omega
    · intro l hl; omega
    · intro elts l hl; omega
  | succ fuel ih =>
    obtain ⟨ihp, ihc, ihl⟩ := ih
    refine ⟨?_, ?_, ?_⟩
    · intro l hl
      rw [parse_succ]
      split
      · simp
      · rename_i c t heq
        have hle : (c :: t).length ≤ l.length := heq ▸ eatSpace_length l
        split
        · exact parse_atom_ne_fuelOut _
        · split
          · exact ihc _ (by omega)
          · simp
    · intro l hl
      cases l with
      | nil => rw [parse_cell_succ_nil]; simp
      | cons c t =>
        have hct : (c :: t).length = t.length + 1 := rfl
        rw [parse_cell_succ]
        split
        · cases h1 : parse fuel t with
          | ok er1 =>
            obtain ⟨e1, r1⟩ := er1
            rw [RRes.bind_ok]
            have d1 := (parse_length fuel).1 _ _ _ h1
            cases h2 : parse fuel r1 with
            | ok er2 =>
              obtain ⟨e2, r2⟩ := er2
              rw [RRes.bind_ok]
              have d2 := (parse_length fuel).1 _ _ _ h2
              exact ihl [e1, e2] r2 (by omega)
            | err => rw [RRes.bind_err]; simp
            | panic => rw [RRes.bind_panic]; simp
            | fuelOut => exact absurd h2 (ihp r1 (by omega))
          | err => rw [RRes.bind_err]; simp
          | panic => rw [RRes.bind_panic]; simp
          | fuelOut => exact absurd h1 (ihp t (by omega))
        · simp
    · intro elts l hl
      rw [cellLoop_succ]
      split
      · simp
      · rename_i c t heq
        have hle : (c :: t).length ≤ l.length := heq ▸ eatSpace_length l
        have hct : (c :: t).length = t.length + 1 := rfl
        split
        · cases h1 : parse_atom (c :: t) with
          | ok er =>
            obtain ⟨e, r'⟩ := er
            rw [RRes.bind_ok]
            have d1 := parse_atom_length _ _ _ h1
            exact ihl (elts ++ [e]) r' (by omega)
          | err => rw [RRes.bind_err]; simp
          | panic => rw [RRes.bind_panic]; simp
          | fuelOut => exact absurd h1 (parse_atom_ne_fuelOut _)
        · split
          · cases h1 : parse_cell fuel (c :: t) with
            | ok er =>
              obtain ⟨e, r'⟩ := er
              rw [RRes.bind_ok]
              have d1 := (parse_length fuel).2.1 _ _ _ h1
              exact ihl (elts ++ [e]) r' (by omega)
            | err => rw [RRes.bind_err]; simp
            | panic => rw [RRes.bind_panic]; simp
            | fuelOut => exact absurd h1 (ihc _ (by omega))
          · split
            · split <;> simp
            · simp

theorem parse_no_panic :
    ∀ fuel,
      (∀ l, parse fuel l ≠ .panic)
      ∧ (∀ t, parse_cell fuel ('[' :: t) ≠ .panic)
      ∧ (∀ elts l, elts ≠ [] → cellLoop fuel elts l ≠ .panic) := by
  intro fuel
  induction fuel with
  | zero =>
    refine ⟨?_, ?_, ?_⟩
    · intro l h; cases h
    · intro t h; cases h
    · intro elts l _ h; cases h
  | succ fuel ih =>
    obtain ⟨ihp, ihc, ihl⟩ := ih
    refine ⟨?_, ?_, ?_⟩
    · intro l
      rw [parse_succ]
      split
      · simp
      · rename_i c t heq
        split
        · exact parse_atom_no_panic _
        · split
          · rename_i hnd hb
            subst hb
            exact ihc t
          · simp
    · intro t
      rw [parse_cell_succ]
      rw [if_pos rfl]
      cases h1 : parse fuel t with
      | ok er1 =>
        obtain ⟨e1, r1⟩ := er1
        rw [RRes.bind_ok]
        cases h2 : parse fuel r1 with
        | ok er2 =>
          obtain ⟨e2, r2⟩ := er2
          rw [RRes.bind_ok]
          exact ihl [e1, e2] r2 (by simp)
        | err => rw [RRes.bind_err]; simp
        | panic => exact absurd h2 (ihp r1)
        | fuelOut => rw [RRes.bind_fuelOut]; simp
      | err => rw [RRes.bind_err]; simp
      | panic => exact absurd h1 (ihp t)
      | fuelOut => rw [RRes.bind_fuelOut]; simp
    · intro elts l hne
      rw [cellLoop_succ]
      split
      · simp
      · rename_i c t heq
        split
        · cases h1 : parse_atom (c :: t) with
          | ok er =>
            obtain ⟨e, r'⟩ := er
            rw [RRes.bind_ok]
            exact ihl (elts ++ [e]) r' (by simp)
          | err => rw [RRes.bind_err]; simp
          | panic => exact absurd h1 (parse_atom_no_panic _)
          | fuelOut => rw [RRes.bind_fuelOut]; simp
        · split
          · rename_i hnd hb
            subst hb
            cases h1 : parse_cell fuel ('[' :: t) with
            | ok er =>
              obtain ⟨e, r'⟩ := er
              rw [RRes.bind_ok]
              exact ihl (elts ++ [e]) r' (by simp)
            | err => rw [RRes.bind_err]; simp
            | panic => exact absurd h1 (ihc t)
            | fuelOut => rw [RRes.bind_fuelOut]; simp
          · split
            · split
              · simp
              · rename_i hnone
                exact absurd hnone (collectNoun_ne_none elts hne)
            · simp

theorem from_str_ok_or_err (s : List Char) :
    (∃ n, from_str s = .ok n) ∨ from_str s = .err := by
  unfold from_str
  cases hp : parse (2 * s.length + 4) s with
  | ok er =>
    obtain ⟨n, r⟩ := er
    exact Or.inl ⟨n, rfl⟩
  | err => exact Or.inr rfl
  | panic => exact absurd hp ((parse_no_panic _).1 s)
  | fuelOut => exact absurd hp ((parse_adequate _).1 s (by omega))

theorem axisFuel_ne_panic : ∀ fuel a s, axisFuel fuel a s ≠ .panic := by
  intro fuel
  induction fuel with
  | zero => intro a s h; cases h
  | succ fuel ih =>
    intro a s
    unfold axisFuel
    split
    · simp
    · split
      · simp
      · split
        · simp
        · exact ih _ _

theorem bump_ne_panic (p : Noun) : bump p ≠ .panic := by
  cases p <;> simp [bump]

theorem RRes.bind_ne_panic {α β : Type} (x : RRes α) (f : α → RRes β)
    (hx : x ≠ .panic) (hf : ∀ a, f a ≠ .panic) : x.bind f ≠ .panic := by
  cases x with
  | ok a => exact hf a
  | err => simp [RRes.bind]
  | panic => exact absurd rfl hx
  | fuelOut => simp [RRes.bind]

theorem nockStep_ne_panic (recur : Noun → Noun → RRes Noun)
    (hr : ∀ s f, recur s f ≠ .panic) (s f : Noun) :
    nockStep recur s f ≠ .panic := by
  unfold nockStep
  split
  · split
    · split
      · exact axisFuel_ne_panic _ _ _
      · simp
    · simp
    · split
      · exact RRes.bind_ne_panic _ _ (hr _ _) fun p =>
          RRes.bind_ne_panic _ _ (hr _ _) fun q => hr _ _
      · simp
    · exact RRes.bind_ne_panic _ _ (hr _ _) fun p => by
        cases p <;> simp
    · exact RRes.bind_ne_panic _ _ (hr _ _) bump_ne_panic
    · simp
    · split
      · exact RRes.bind_ne_panic _ _ (hr _ _) fun a =>
          RRes.bind_ne_panic _ _ (hr _ _) fun b => by simp
      · simp
  · simp

theorem nock_no_panic : ∀ fuel subject formula,
    nock_on fuel subject formula ≠ .panic := by
  intro fuel
  induction fuel with
  | zero => intro s f h; cases h
  | succ fuel ih =>
    intro s f
    rw [nock_on_succ]
    exact nockStep_ne_panic _ ih s f

theorem axisFuel_irrel : ∀ f g a s, a < f → a < g → axisFuel f a s = axisFuel g a s := by
  intro f
  induction f with
  | zero => intro g a s hf; omega
  | succ f ih =>
    intro g a s hf hg
    match g with
    | 0 => omega
    | g+1 =>
      show axisFuel (f+1) a s = axisFuel (g+1) a s
      unfold axisFuel
      by_cases h0 : a = 0
      · simp [h0]
      · by_cases h1 : a = 1
        · simp [h0, h1]
        · simp only [h0, h1, if_false]
          match s with
          | .atom d => rfl
          | .cell l r =>
            have hlt : a / 2 < a := Nat.div_lt_self (by omega) (by omega)
            exact ih g (a / 2) _ (by omega) (by omega)

theorem axisNat_step (a : Nat) (s : Noun) (h : 1 < a) :
    axisNat a s =
      match s with
      | .atom _ => .err
      | .cell l r => axisNat (a / 2) (if a % 2 = 0 then l else r) := by
  unfold axisNat
  conv_lhs => unfold axisFuel
  simp only [show a ≠ 0 by omega, show a ≠ 1 by omega, if_false]
  match s with
  | .atom d => rfl
  | .cell l r =>
    have hlt : a / 2 < a := Nat.div_lt_self (by omega) (by omega)
    exact axisFuel_irrel a (a / 2 + 1) (a / 2) _ (by omega) (by omega)

/-- C1: evaluating a formula `[0 a]` dispatches to binary-tree axis
addressing of the subject: axis 1 is the whole subject, an even axis `a > 1`
selects axis `a/2` of the left child, an odd axis `a > 1` selects axis
`(a-1)/2` of the right child, and evaluation fails at axis 0 or when descent
reaches an atom; in particular `nock_on(42, [0 1]) = 42`,
`nock_on([4 5], [0 2]) = 4` and `nock_on([4 5], [0 3]) = 5`.
(The `axis` body is `unimplemented!()` in the source; it is modelled from
the spec here.) -/
theorem claim1_axis (fuel : Nat) (s z : Noun) (d : Digits)
    (hz : z.as_u32 = some 0) (a : Nat) (l r : Noun) (ha : 1 < a) :
    nock_on (fuel+1) s (.cell z (.atom d)) = axis d s
    ∧ axisNat 1 s = .ok s
    ∧ axisNat 0 s = .err
    ∧ (a % 2 = 0 → axisNat a (.cell l r) = axisNat (a / 2) l)
    ∧ (a % 2 = 1 → axisNat a (.cell l r) = axisNat ((a - 1) / 2) r)
    ∧ axisNat a (.atom d) = .err
    ∧ nock_on 1 (Noun.fromNat 42) (.cell (Noun.fromNat 0) (Noun.fromNat 1))
        = .ok (Noun.fromNat 42)
    ∧ nock_on 1 (Noun.cell (Noun.fromNat 4) (Noun.fromNat 5))
        (.cell (Noun.fromNat 0) (Noun.fromNat 2)) = .ok (Noun.fromNat 4)
    ∧ nock_on 1 (Noun.cell (Noun.fromNat 4) (Noun.fromNat 5))
        (.cell (Noun.fromNat 0) (Noun.fromNat 3)) = .ok (Noun.fromNat 5) := by
  refine ⟨?_, rfl, rfl, ?_, ?_, ?_, by decide, by decide, by decide⟩
  · rw [nock_on_succ]
    simp only [nockStep, hz]
  · intro he
    rw [axisNat_step a _ ha]
    simp [he]
  · intro ho
    rw [axisNat_step a _ ha]
    have hne : ¬ (a % 2 = 0) := by omega
    have hdiv : (a - 1) / 2 = a / 2 := by omega
    simp [hne, hdiv]
  · rw [axisNat_step a _ ha]

theorem claim1_axis_witness :
    nock_on 1 (Noun.fromNat 42) (.cell (Noun.fromNat 0) (.atom (natToDigits 1)))
      = axis (natToDigits 1) (Noun.fromNat 42) :=
  (claim1_axis 0 (Noun.fromNat 42) (Noun.fromNat 0) (natToDigits 1) (by decide)
    2 (Noun.fromNat 0) (Noun.fromNat 0) (by decide)).1

/-- C2: evaluating a formula `[4 f]` first evaluates `p = nock_on(s, f)`;
an atom result is incremented with arbitrary precision (no fixed-width
wraparound) and a cell result fails; in particular
`nock_on([4 5], [4 [0 2]]) = 5`.  (Opcode 4 is commented out in the source;
it is modelled from the spec here.) -/
theorem claim2_bump (fuel : Nat) (s z f : Noun) (hz : z.as_u32 = some 4)
    (d : Digits) (a b : Noun) :
    nock_on (fuel+1) s (.cell z f) = (nock_on fuel s f).bind bump
    ∧ bump (.atom d) = .ok (.atom (natToDigits (digitsVal d + 1)))
    ∧ bump (.cell a b) = .err
    ∧ bump (.atom (natToDigits 4294967295))
        = .ok (.atom (natToDigits 4294967296))
    ∧ nock_on 2 (Noun.cell (Noun.fromNat 4) (Noun.fromNat 5))
        (.cell (Noun.fromNat 4) (.cell (Noun.fromNat 0) (Noun.fromNat 2)))
        = .ok (Noun.fromNat 5) := by
  refine ⟨?_, rfl, rfl, ?_, by decide⟩
  · rw [nock_on_succ]
    simp only [nockStep, hz]
  · simp only [bump, digitsVal_natToDigits]

theorem claim2_bump_witness :
    nock_on 1 (Noun.fromNat 7) (.cell (Noun.fromNat 4) (Noun.fromNat 1))
      = (nock_on 0 (Noun.fromNat 7) (Noun.fromNat 1)).bind bump :=
  (claim2_bump 0 (Noun.fromNat 7) (Noun.fromNat 4) (Noun.fromNat 1)
    (by decide) [] (Noun.fromNat 0) (Noun.fromNat 0)).1

/-- C9: converting a noun to a 2-tuple of convertible host types succeeds
iff the noun is a cell whose two children both convert; it fails on an atom
or when either child fails to convert. -/
theorem claim9_pair_conv {α β : Type} (fT : Noun → Except Unit α)
    (fU : Noun → Except Unit β) (d : Digits) (a b : Noun) :
    fromNounPair fT fU (.atom d) = .error ()
    ∧ fromNounPair fT fU (.cell a b)
        = (match fT a with
           | .error _ => .error ()
           | .ok t =>
             match fU b with
             | .error _ => .error ()
             | .ok u => .ok (t, u))
    ∧ (∀ n : Noun, (∃ p, fromNounPair fT fU n = .ok p)
        ↔ ∃ x y, n = .cell x y ∧ (∃ t, fT x = .ok t) ∧ (∃ u, fU y = .ok u)) := by
  refine ⟨rfl, rfl, ?_⟩
  intro n
  match n with
  | .atom d' =>
    simp only [fromNounPair]
    constructor
    · rintro ⟨p, hp⟩; cases hp
    · rintro ⟨x, y, hxy, _⟩; cases hxy
  | .cell x y =>
    simp only [fromNounPair]
    constructor
    · rintro ⟨p, hp⟩
      refine ⟨x, y, rfl, ?_, ?_⟩
      · cases hT : fT x with
        | error e => rw [hT] at hp; cases hp
        | ok t => exact ⟨t, rfl⟩
      · cases hT : fT x with
        | error e => rw [hT] at hp; cases hp
        | ok t =>
          rw [hT] at hp
          cases hU : fU y with
          | error e => rw [hU] at hp; cases hp
          | ok u => exact ⟨u, rfl⟩
    · rintro ⟨x', y', hxy, ⟨t, hT⟩, ⟨u, hU⟩⟩
      injection hxy with h1 h2
      subst h1; subst h2
      rw [hT, hU]
      exact ⟨(t, u), rfl⟩

theorem claim9_pair_conv_witness :
    fromNounPair (fun n => Except.ok n) (fun n => Except.ok n) (.atom []) = .error () :=
  (claim9_pair_conv (fun n => Except.ok n) (fun n => Except.ok n) []
    (Noun.atom []) (Noun.atom [])).1

/-- C8: grammar violations are rejected outright: empty brackets, a
single-element cell, the empty input and a garbled digit run all return
`Err(ParseError)` (no partial noun: the only constructor carrying a noun is
`ok`, and these inputs return `err`). -/
theorem claim8_parse_failures :
    from_str ("[]".toList) = .err
    ∧ from_str ("[1]".toList) = .err
    ∧ from_str ("".toList) = .err
    ∧ from_str ("12ab".toList) = .err := by
  refine ⟨by decide, by decide, by decide, by decide⟩

/-- C10: `from_str` does not require the whole input to be consumed: it
returns the noun of the leading `parse` call and drops the remaining
characters, whatever they are; e.g. "1 2" parses to atom 1 and
"5 garbage" to atom 5. -/
theorem claim10_trailing_input (s : List Char) (n : Noun) (rest : List Char)
    (h : parse (2 * s.length + 4) s = .ok (n, rest)) :
    from_str s = .ok n
    ∧ from_str ("1 2".toList) = .ok (Noun.atom [1])
    ∧ from_str ("5 garbage".toList) = .ok (Noun.atom [5]) := by
  refine ⟨?_, by decide, by decide⟩
  unfold from_str
  rw [h]

theorem claim10_trailing_input_witness :
    from_str ("1 2".toList) = .ok (Noun.atom [1]) :=
  (claim10_trailing_input ("1 2".toList) (Noun.atom [1]) (" 2".toList) (by decide)).1

/-- C4 counterexample: the derived equality of the source compares atom
digit vectors exactly, so the two representations of 5 with and without
zero padding are NOT equal even though their numeric values (that is, their
digit sequences after trimming trailing zeros) coincide. -/
theorem claim4_padding_cex :
    ((Noun.atom [5] == Noun.atom [5, 0, 0]) = false)
    ∧ ((digitsVal [5] == digitsVal [5, 0, 0]) = true) := by
  exact ⟨by decide, by decide⟩

/-- C4 (amended): noun equality is exact structural equality of the
representation: two atoms are equal iff their digit lists are identical
(including any trailing zero padding), cells compare componentwise, and in
particular `Noun::atom(&[5])` differs from `Noun::atom(&[5, 0, 0])`. -/
theorem claim4_exact_equality (d1 d2 : Digits) (a b c d : Noun) :
    (Noun.atom d1 = Noun.atom d2 ↔ d1 = d2)
    ∧ (Noun.cell a b = Noun.cell c d ↔ a = c ∧ b = d)
    ∧ ((Noun.atom [5] == Noun.atom [5, 0, 0]) = false) := by
  refine ⟨?_, ?_, by decide⟩
  · simp
  · simp

theorem claim4_exact_equality_witness :
    Noun.atom [5] = Noun.atom [5] ↔ [5] = ([5] : Digits) :=
  (claim4_exact_equality [5] [5] (Noun.atom []) (Noun.atom [])
    (Noun.atom []) (Noun.atom [])).1

/-- C5: hashing does NOT respect structural equality independently of
sharing: the cell `[5 5]` built with one shared `Rc` child and the same
noun value built from two separate allocations denote equal nouns, yet the
memo hit skips the second slice write and the threaded-state `finish` makes
the cached intermediate differ, so the two hasher streams (hence the
hashes) differ.  The claim's second half does hold: the unequal nouns
`[[1 2] 3]` and `[1 2 3]` produce different streams. -/
theorem claim5_hash_not_structural :
    unfoldGraph ⟨[.gatom [5], .gcell 0 0], 1⟩
        = some (Noun.cell (Noun.atom [5]) (Noun.atom [5]))
    ∧ unfoldGraph ⟨[.gatom [5], .gatom [5], .gcell 0 1], 2⟩
        = some (Noun.cell (Noun.atom [5]) (Noun.atom [5]))
    ∧ ((hashTrace ⟨[.gatom [5], .gcell 0 0], 1⟩
        == hashTrace ⟨[.gatom [5], .gatom [5], .gcell 0 1], 2⟩) = false)
    ∧ ((hashTrace (toGraph (Noun.cell (Noun.cell (Noun.atom [1]) (Noun.atom [2]))
            (Noun.atom [3])))
        == hashTrace (toGraph (Noun.cell (Noun.atom [1])
            (Noun.cell (Noun.atom [2]) (Noun.atom [3]))))) = false) := by
  refine ⟨by decide, by decide, by decide, by decide⟩

/-- C6: print/parse round trip — any noun obtained by parsing some text
reparses identically from its printed form (the parser only produces
canonical atoms, and printing a canonical noun parses back to it). -/
theorem claim6_print_parse_roundtrip (s : List Char) (n : Noun)
    (h : from_str s = .ok n) :
    from_str (printNoun n) = .ok n := by
  unfold from_str at h
  cases hp : parse (2 * s.length + 4) s with
  | ok er =>
    obtain ⟨n', r⟩ := er
    rw [hp] at h
    simp only [RRes.ok.injEq] at h
    subst h
    exact from_str_printNoun n' ((parse_canonical _).1 _ _ _ hp)
  | err => rw [hp] at h; cases h
  | panic => rw [hp] at h; cases h
  | fuelOut => rw [hp] at h; cases h

theorem claim6_print_parse_roundtrip_witness :
    from_str (printNoun (Noun.cell (Noun.atom [1]) (Noun.atom [2])))
      = .ok (Noun.cell (Noun.atom [1]) (Noun.atom [2])) :=
  claim6_print_parse_roundtrip ("[1 2]".toList)
    (Noun.cell (Noun.atom [1]) (Noun.atom [2])) (by decide)

/-- C7: a bracketed cell of three inner nouns parses as the right fold into
nested pairs: the text `[a b c]` (with printed canonical components) parses
to `Cell(a, Cell(b, c))`; in particular "[1 2 3]" and "[1 [2 3]]" parse to
the identical noun. -/
theorem claim7_cell_right_fold (a b c : Noun) (hca : a.canonical = true)
    (hcb : b.canonical = true) (hcc : c.canonical = true) :
    from_str ('[' :: (printNoun a ++ ' ' ::
        (printNoun b ++ ' ' :: (printNoun c ++ [']']))))
      = .ok (.cell a (.cell b c))
    ∧ from_str ("[1 2 3]".toList)
        = .ok (.cell (Noun.atom [1]) (.cell (Noun.atom [2]) (Noun.atom [3])))
    ∧ from_str ("[1 [2 3]]".toList) = from_str ("[1 2 3]".toList) := by
  refine ⟨?_, by decide, by decide⟩
  have hpa := printNoun_length_pos a
  have hpb := printNoun_length_pos b
  have hpc := printNoun_length_pos c
  set s := '[' :: (printNoun a ++ ' ' :: (printNoun b ++ ' ' :: (printNoun c ++ [']'])))
    with hs
  have hlen : s.length
      = (printNoun a).length + (printNoun b).length + (printNoun c).length + 4 := by
    rw [hs]; simp; omega
  have hparse : parse (2 * s.length + 4) s = .ok (.cell a (.cell b c), []) := by
    obtain ⟨f2, hf2⟩ : ∃ f2, 2 * s.length + 4 = f2 + 2 := ⟨2 * s.length + 2, by omega⟩
    have hfx : 2 * ((printNoun a).length + (printNoun b).length
        + (printNoun c).length + 4) + 4 = f2 + 2 := by
      rw [← hlen]; exact hf2
    rw [hf2, hs]
    rw [show parse (f2+2) ('[' :: (printNoun a ++ ' ' ::
          (printNoun b ++ ' ' :: (printNoun c ++ [']']))))
        = parse_cell (f2+1) ('[' :: (printNoun a ++ ' ' ::
          (printNoun b ++ ' ' :: (printNoun c ++ [']'])))) from parse_bracket (f2+1) _]
    rw [parse_cell_succ f2 '[' _, if_pos rfl]
    have hPa := (roundtrip_strong a.size a (Nat.le_refl _)).1
      (' ' :: (printNoun b ++ ' ' :: (printNoun c ++ [']']))) f2
      (goodRest_cons _ _ (by decide)) hca
      (by
        simp only [List.length_append, List.length_cons, List.length_nil] at hfx ⊢
        omega)
    rw [hPa, RRes.bind_ok]
    obtain ⟨f3, rfl⟩ : ∃ f3, f2 = f3 + 1 := ⟨f2 - 1, by omega⟩
    rw [show (a, ' ' :: (printNoun b ++ ' ' :: (printNoun c ++ [']']))).2
        = ' ' :: (printNoun b ++ ' ' :: (printNoun c ++ [']'])) from rfl]
    rw [parse_eatSpace_congr f3 _ _ (eatSpace_space _)]
    have hPb := (roundtrip_strong b.size b (Nat.le_refl _)).1
      (' ' :: (printNoun c ++ [']'])) (f3+1)
      (goodRest_cons _ _ (by decide)) hcb
      (by
        simp only [List.length_append, List.length_cons, List.length_nil] at hfx ⊢
        omega)
    rw [hPb, RRes.bind_ok]
    show cellLoop (f3+1) [a, b] (' ' :: (printNoun c ++ [']'])) = _
    rw [cellLoop_eatSpace_congr f3 [a, b] _ _ (eatSpace_space _)]
    have hPc := (roundtrip_strong c.size c (Nat.le_refl _)).1 [']'] (f3+1)
      (goodRest_cons _ _ (by decide)) hcc
      (by
        simp only [List.length_append, List.length_cons, List.length_nil] at hfx ⊢
        omega)
    rw [cellLoop_of_parse f3 [a, b] _ _ c (eatSpace_printNoun c _) hPc]
    obtain ⟨f4, rfl⟩ : ∃ f4, f3 = f4 + 1 := ⟨f3 - 1, by omega⟩
    show cellLoop (f4+1) [a, b, c] [']'] = _
    rw [cellLoop_close f4 [a, b, c] []]
    rw [show collectNoun [a, b, c] = some (.cell a (.cell b c)) by
      rw [collectNoun_eq_rfold]; rfl]
  unfold from_str
  rw [hparse]

theorem claim7_cell_right_fold_witness :
    from_str ('[' :: (printNoun (Noun.atom [1]) ++ ' ' ::
        (printNoun (Noun.atom [2]) ++ ' ' :: (printNoun (Noun.atom [3]) ++ [']']))))
      = .ok (.cell (Noun.atom [1]) (.cell (Noun.atom [2]) (Noun.atom [3]))) :=
  (claim7_cell_right_fold (Noun.atom [1]) (Noun.atom [2]) (Noun.atom [3])
    (by decide) (by decide) (by decide)).1

/-- C3: no panics, explicit failure results.  The evaluator (with the
spec-modelled axis helper in place of the source's `unimplemented!()` stub)
never reaches a panic outcome for any fuel, subject and formula; the parser
is total on every input string: `from_str` returns `ok` or `err` — never a
panic (the source's `panic!`/`.expect` sites are unreachable) and never
fuel exhaustion (the embedding's fuel is always sufficient). -/
theorem claim3_no_crash :
    (∀ fuel subject formula, nock_on fuel subject formula ≠ .panic)
    ∧ (∀ s : List Char, (∃ n, from_str s = .ok n) ∨ from_str s = .err) :=
  ⟨nock_no_panic, from_str_ok_or_err⟩

end NockRs
